import Mathlib

/-!
Shallow embedding of the core algorithms of the `music_of_nature` repository.

Python integers are embedded as `ℤ` (Python `//` and `%` with positive
divisor are floor division and nonnegative remainder, i.e. `Int.ediv` /
`Int.emod`, which are Lean's `/` and `%` on `ℤ`).  Python floats carrying
times, durations and sample values are embedded as `ℚ`; the one place where
IEEE semantics matter (division by a zero maximum in `mix.py`) is embedded
with an explicit non-finite marker (`Option ℚ`, `none` = NaN/Inf).
-/

namespace MusicOfNature

/-! ### DiatonicMapper: `adjust_to_diatonic`
Embedded from `src/less_dissonance.py` lines 37-58 and (a verbatim copy)
`src/harmonize_choose_key.py` lines 27-45. -/

/-- Python list indexing `diatonic_pitches[i]`; the loops below only read it
at indices `0 ≤ i < len`, where it agrees with Python. -/
def dget (d : List ℤ) (i : ℤ) : ℤ := d.getD i.toNat 0

/-- The `while left <= right` binary-search loop of
`less_dissonance.adjust_to_diatonic`, with explicit fuel: the caller passes
fuel equal to the loop's termination measure `right + 1 - left`, so the
fuel-exhausted branch is never taken (proved in `bs_loop_ld_spec`). -/
def bs_loop_ld (d : List ℤ) (p : ℤ) : ℕ → ℤ → ℤ → ℤ × ℤ
  | 0, l, r => (l, r)
  | fuel + 1, l, r =>
    if l ≤ r then
      let mid := (l + r) / 2
      if dget d mid < p then bs_loop_ld d p fuel (mid + 1) r
      else bs_loop_ld d p fuel l (mid - 1)
    else (l, r)

/-- The `while left <= right` binary-search loop of
`harmonize_choose_key.adjust_to_diatonic` (verbatim copy of the one in
`less_dissonance.py`). -/
def bs_loop_hck (d : List ℤ) (p : ℤ) : ℕ → ℤ → ℤ → ℤ × ℤ
  | 0, l, r => (l, r)
  | fuel + 1, l, r =>
    if l ≤ r then
      let mid := (l + r) / 2
      if dget d mid < p then bs_loop_hck d p fuel (mid + 1) r
      else bs_loop_hck d p fuel l (mid - 1)
    else (l, r)

/-- One step of `candidates.append(diatonic_pitches[i]) if 0 <= i < len`. -/
def cand_at (d : List ℤ) (i : ℤ) : List ℤ :=
  if 0 ≤ i ∧ i < (d.length : ℤ) then [dget d i] else []

/-- Python's `min(candidates, key=lambda x: abs(x - pitch_num))`: a left
fold keeping the first element whose key is minimal (a later element
replaces the current best only when its key is strictly smaller). -/
def pymin (p : ℤ) : ℤ → List ℤ → ℤ
  | best, [] => best
  | best, x :: xs => pymin p (if |x - p| < |best - p| then x else best) xs

/-- Function `adjust_to_diatonic` from `src/less_dissonance.py` lines 37-58. -/
def adjust_to_diatonic_ld (pitch_num : ℤ) (diatonic_pitches : List ℤ) : ℤ :=
  let lr := bs_loop_ld diatonic_pitches pitch_num diatonic_pitches.length
    0 ((diatonic_pitches.length : ℤ) - 1)
  let candidates := cand_at diatonic_pitches lr.2 ++ cand_at diatonic_pitches lr.1
  match candidates with
  | [] => pitch_num
  | c :: cs => pymin pitch_num c cs

/-- Function `adjust_to_diatonic` from `src/harmonize_choose_key.py` lines 27-45
(verbatim copy of the one in `less_dissonance.py`). -/
def adjust_to_diatonic_hck (pitch_num : ℤ) (diatonic_pitches : List ℤ) : ℤ :=
  let lr := bs_loop_hck diatonic_pitches pitch_num diatonic_pitches.length
    0 ((diatonic_pitches.length : ℤ) - 1)
  let candidates := cand_at diatonic_pitches lr.2 ++ cand_at diatonic_pitches lr.1
  match candidates with
  | [] => pitch_num
  | c :: cs => pymin pitch_num c cs

/-! ### NoteSegmenter: the frame loop of `audio_to_midi`
Embedded from `src/audio_to_midi_2.py` lines 46-99 (identical logic in
`src/audio_to_midi_music.py` lines 45-86).  A frame is abstracted to the
outcome of the per-frame pitch detection: `none` when the frame is skipped
(`max_mag < threshold` or `prominent_freq <= 0`), `some (note_number,
velocity)` otherwise.  The frame's time is `i * hop_length / sr` exactly as
in the source. -/

/-- Embeds `pretty_midi.Note(velocity, pitch, start, end)`; the `end` field is
named `stop` because `end` is a Lean keyword. -/
structure PNote where
  velocity : ℤ
  pitch : ℤ
  start : ℚ
  stop : ℚ
  deriving DecidableEq, Repr

/-- The `active_notes` dict: `{pitch: (start_time, velocity)}`, kept in
Python-3.7 dict insertion order. -/
abbrev NoteTable := List (ℤ × ℚ × ℤ)

/-- Embeds `note_number in active_notes` / `active_notes[note_number]`. -/
def tableLookup (p : ℤ) : NoteTable → Option (ℚ × ℤ)
  | [] => none
  | (q, v) :: rest => if q = p then some v else tableLookup p rest

/-- Embeds `active_notes.pop(note_number)`: removes the binding of `p`. -/
def tableRemove (p : ℤ) : NoteTable → NoteTable
  | [] => []
  | (q, v) :: rest => if q = p then rest else (q, v) :: tableRemove p rest

/-- Embeds `active_notes[note_number] = value`: dict assignment — replace in place
when the key is present, append otherwise. -/
def tableUpdate (p : ℤ) (v : ℚ × ℤ) : NoteTable → NoteTable
  | [] => [(p, v)]
  | (q, w) :: rest =>
    if q = p then (q, v) :: rest else (q, w) :: tableUpdate p v rest

/-- Constant `n_fft = 2048` from the source. -/
def n_fft : ℕ := 2048

/-- Constant `hop_length = n_fft // 4` from the source. -/
def hop_length : ℕ := n_fft / 4

/-- The mutable state of the segmentation loop: `last_note_time`,
`active_notes`, and `midi_instrument.notes`. -/
structure SegState where
  last_note_time : ℚ
  active_notes : NoteTable
  notes : List PNote

/-- The body of `for i in range(magnitude.shape[1])` for one frame, given
the frame's `current_time` and its detection outcome. -/
def segStep (min_note_gap min_note_duration : ℚ) (current_time : ℚ)
    (obs : Option (ℤ × ℤ)) (s : SegState) : SegState :=
  match obs with
  | none => s
  | some (note_number, velocity) =>
    if min_note_gap ≤ current_time - s.last_note_time then
      let s1 :=
        match tableLookup note_number s.active_notes with
        | some (start_time, old_velocity) =>
          let s2 : SegState :=
            { s with active_notes := tableRemove note_number s.active_notes }
          if min_note_duration ≤ current_time - start_time then
            { s2 with notes :=
                s2.notes ++ [(⟨old_velocity, note_number, start_time, current_time⟩ : PNote)] }
          else s2
        | none => s
      { s1 with
        active_notes := tableUpdate note_number (current_time, velocity) s1.active_notes,
        last_note_time := current_time }
    else s

/-- The whole frame scan, processing frame `i` at time
`i * hop_length / sr`. -/
def segRun (min_note_gap min_note_duration sr : ℚ) :
    List (Option (ℤ × ℤ)) → ℕ → SegState → SegState
  | [], _, s => s
  | f :: fs, i, s =>
    segRun min_note_gap min_note_duration sr fs (i + 1)
      (segStep min_note_gap min_note_duration ((i : ℚ) * (hop_length : ℚ) / sr) f s)

/-- The flush `for note_number, (start_time, velocity) in active_notes.items()`
after the scan: `duration = total_time - start_time`, kept when it meets
`min_note_duration`. -/
def segFlush (min_note_duration : ℚ) (total_time : ℚ) (s : SegState) : List PNote :=
  s.notes ++ s.active_notes.filterMap (fun pv =>
    let duration := total_time - pv.2.1
    if min_note_duration ≤ duration then
      some ⟨pv.2.2, pv.1, pv.2.1, pv.2.1 + duration⟩
    else none)

/-- The note list produced by `audio_to_midi`'s segmentation:
`last_note_time` starts at `-min_note_gap`, and the flush end time is
`len(magnitude[0]) * hop_length / sr` (frame count × hop ÷ sample rate). -/
def audio_to_midi_notes (min_note_gap min_note_duration sr : ℚ)
    (frames : List (Option (ℤ × ℤ))) : List PNote :=
  segFlush min_note_duration ((frames.length : ℚ) * (hop_length : ℚ) / sr)
    (segRun min_note_gap min_note_duration sr frames 0 ⟨-min_note_gap, [], []⟩)

/-- The instrument-program selection at the top of `audio_to_midi`
(`src/audio_to_midi_2.py` lines 31-33): default to program 0 (Acoustic
Grand Piano), overridden only when `0 <= instrument <= 127`. -/
def instrument_program_of (instrument : ℤ) : ℤ :=
  if 0 ≤ instrument ∧ instrument ≤ 127 then instrument else 0

/-- The `audio_to_midi` entry point as reachable from the `/convert/`
endpoint (`src/audio_to_midi_api.py` passes its form parameters straight
through): no parameter validation happens anywhere on the way, so the
result is always a program number and a note list, never an error. -/
def audio_to_midi_entry (instrument : ℤ) (min_note_duration min_note_gap sr : ℚ)
    (frames : List (Option (ℤ × ℤ))) : ℤ × List PNote :=
  (instrument_program_of instrument,
    audio_to_midi_notes min_note_gap min_note_duration sr frames)

/-! ### Harmonizer: the note loop of `process_midi`
Pitch adjustment embedded from `src/harmonize_choose_key.py` lines 72-77
(identical in `src/less_dissonance.py` lines 79-87); the overlap trim from
`src/harmonize_choose_key.py` lines 83-93. -/

/-- The per-note pitch computation: snap with `adjust_to_diatonic`, then
force the octave back when the snapped octave is more than 1 away
(`original_octave = n.pitch // 12`, fallback
`(original_octave * 12) + (adjusted_pitch % 12)`). -/
def harmonized_pitch (diatonic_pitches : List ℤ) (p : ℤ) : ℤ :=
  let original_octave := p / 12
  let adjusted_pitch := adjust_to_diatonic_hck p diatonic_pitches
  let adjusted_octave := adjusted_pitch / 12
  if 1 < |adjusted_octave - original_octave| then
    original_octave * 12 + adjusted_pitch % 12
  else adjusted_pitch

/-- Inserting one new note into `new_instr.notes`: first
`for note in new_instr.notes: if note.end > start: note.end = start`,
then append the new note. -/
def insert_trimmed (notes : List PNote) (n : PNote) : List PNote :=
  (notes.map fun m => if n.start < m.stop then { m with stop := n.start } else m) ++ [n]

/-- The per-instrument note loop of `harmonize_choose_key.process_midi`:
re-pitch each note (velocity, start, end unchanged) and insert it with the
overlap trim. -/
def process_midi_notes (diatonic_pitches : List ℤ) (input : List PNote) : List PNote :=
  input.foldl (fun acc n =>
    insert_trimmed acc { n with pitch := harmonized_pitch diatonic_pitches n.pitch }) []

/-! ### Mixer: `mix_wavs` from `src/mix.py`
Buffers are mono sample lists over ℚ.  `combined /= np.max(np.abs(combined))`
is IEEE float division with no zero guard; a non-finite result sample
(0/0 = NaN, x/0 = ±Inf) is embedded as `none`. -/

/-- Embeds `np.pad(data, (0, max_len - len(data)))`. -/
def pad_to (n : ℕ) (xs : List ℚ) : List ℚ := xs ++ List.replicate (n - xs.length) 0

/-- Embeds `np.sum(padded_data, axis=0)` over equal-length (padded) buffers. -/
def combinedOf (ls : List (List ℚ)) : List ℚ :=
  let max_len := (ls.map List.length).foldr max 0
  (List.range max_len).map (fun i =>
    ((ls.map (pad_to max_len)).map (fun l => l.getD i 0)).sum)

/-- Embeds `np.max(np.abs(combined))` (the buffers reaching it are nonempty). -/
def maxAbs (xs : List ℚ) : ℚ := (xs.map (fun x => |x|)).foldr max 0

/-- IEEE float division of a sample by the peak: `none` marks a non-finite
result (dividing by a zero maximum yields NaN/Inf, never a number). -/
def peakDiv (x m : ℚ) : Option ℚ := if m = 0 then none else some (x / m)

/-- The buffer written by `mix_wavs` (per sample; `none` = non-finite):
sum the padded inputs, then divide every sample by the global maximum
absolute sample value — with no guard against a zero maximum. -/
def mix_wavs (ls : List (List ℚ)) : List (Option ℚ) :=
  let combined := combinedOf ls
  let m := maxAbs combined
  combined.map (fun x => peakDiv x m)

/-! ### Statement vocabulary (not from the source) -/

/-- All onset times currently recorded in a segmentation state: the starts
of the already-emitted notes and of the still-active notes. -/
def allStarts (s : SegState) : List ℚ :=
  s.notes.map PNote.start ++ s.active_notes.map (fun pv => pv.2.1)

/-- The running invariant of the segmentation loop: the active table has
no duplicate pitches, every recorded onset is at or before
`last_note_time`, and any two recorded onsets are at least
`min_note_gap` apart. -/
def SegInv (min_note_gap : ℚ) (s : SegState) : Prop :=
  (s.active_notes.map Prod.fst).Nodup ∧
    (∀ x ∈ allStarts s, x ≤ s.last_note_time) ∧
    List.Pairwise (fun a b => min_note_gap ≤ |a - b|) (allStarts s)

/-! ### Lemmas about the DiatonicMapper -/

lemma dget_coe (d : List ℤ) (j : ℕ) (h : j < d.length) : dget d (j : ℤ) = d[j] := by
  simp [dget, List.getD_eq_getElem _ _ h, List.getElem?_eq_getElem h]

lemma dget_mem (d : List ℤ) {i : ℤ} (h0 : 0 ≤ i) (h1 : i < (d.length : ℤ)) :
    dget d i ∈ d := by
  lift i to ℕ using h0
  rw [dget_coe d i (by exact_mod_cast h1)]
  exact List.getElem_mem _

lemma dget_mono {d : List ℤ} (hs : List.Sorted (· < ·) d) {i j : ℤ}
    (h0 : 0 ≤ i) (hij : i ≤ j) (hj : j < (d.length : ℤ)) : dget d i ≤ dget d j := by
  rcases eq_or_lt_of_le hij with rfl | hlt
  · exact le_rfl
  · lift j to ℕ using le_trans h0 hij
    lift i to ℕ using h0
    have hjn : j < d.length := by exact_mod_cast hj
    have hin : i < d.length := by omega
    rw [dget_coe d i hin, dget_coe d j hjn]
    exact le_of_lt (List.pairwise_iff_getElem.mp hs i j hin hjn (by exact_mod_cast hlt))

lemma bs_loop_ld_spec {d : List ℤ} (hs : List.Sorted (· < ·) d) (p : ℤ) :
    ∀ (fuel : ℕ) (l r : ℤ),
      (r + 1 - l).toNat ≤ fuel →
      0 ≤ l → r < (d.length : ℤ) → l ≤ r + 1 →
      (∀ i : ℤ, 0 ≤ i → i < l → dget d i < p) →
      (∀ i : ℤ, r < i → i < (d.length : ℤ) → p ≤ dget d i) →
      ∃ lb : ℤ, bs_loop_ld d p fuel l r = (lb, lb - 1) ∧ 0 ≤ lb ∧ lb ≤ (d.length : ℤ) ∧
        (∀ i : ℤ, 0 ≤ i → i < lb → dget d i < p) ∧
        (∀ i : ℤ, lb ≤ i → i < (d.length : ℤ) → p ≤ dget d i) := by
  intro fuel
  induction fuel with
  | zero =>
    intro l r hfuel h0 hr hlr hlow hhigh
    have hlr' : l = r + 1 := by omega
    refine ⟨l, ?_, h0, by omega, hlow, ?_⟩
    · have hre : r = l - 1 := by omega
      simp [bs_loop_ld, hre]
    · intro i hi hilen
      exact hhigh i (by omega) hilen
  | succ fuel ih =>
    intro l r hfuel h0 hr hlr hlow hhigh
    by_cases hcond : l ≤ r
    · have hmid0 : l ≤ (l + r) / 2 := by omega
      have hmid1 : (l + r) / 2 ≤ r := by omega
      by_cases hbranch : dget d ((l + r) / 2) < p
      · have hlow' : ∀ i : ℤ, 0 ≤ i → i < (l + r) / 2 + 1 → dget d i < p := by
          intro i hi hi'
          by_cases hc : i < l
          · exact hlow i hi hc
          · exact lt_of_le_of_lt
              (dget_mono hs hi (by omega) (by omega)) hbranch
        obtain ⟨lb, heq, hp⟩ :=
          ih ((l + r) / 2 + 1) r (by omega) (by omega) hr (by omega) hlow' hhigh
        refine ⟨lb, ?_, hp⟩
        rw [bs_loop_ld, if_pos hcond]
        simpa [hbranch] using heq
      · have hhigh' : ∀ i : ℤ, (l + r) / 2 - 1 < i → i < (d.length : ℤ) → p ≤ dget d i := by
          intro i hi hilen
          by_cases hc : r < i
          · exact hhigh i hc hilen
          · exact le_trans (not_lt.mp hbranch)
              (dget_mono hs (by omega) (by omega) hilen)
        obtain ⟨lb, heq, hp⟩ :=
          ih l ((l + r) / 2 - 1) (by omega) h0 (by omega) (by omega) hlow hhigh'
        refine ⟨lb, ?_, hp⟩
        rw [bs_loop_ld, if_pos hcond]
        simpa [hbranch] using heq
    · have hlr' : l = r + 1 := by omega
      refine ⟨l, ?_, h0, by omega, hlow, ?_⟩
      · have hre : r = l - 1 := by omega
        rw [bs_loop_ld, if_neg hcond, hre]
      · intro i hi hilen
        exact hhigh i (by omega) hilen

lemma adjust_ld_spec (p : ℤ) (d : List ℤ) (hne : d ≠ [])
    (hs : List.Sorted (· < ·) d) :
    adjust_to_diatonic_ld p d ∈ d ∧
      ∀ x ∈ d, |adjust_to_diatonic_ld p d - p| ≤ |x - p| ∧
        (|adjust_to_diatonic_ld p d - p| = |x - p| → adjust_to_diatonic_ld p d ≤ x) := by
  have hn : 0 < d.length := List.length_pos.mpr hne
  obtain ⟨lb, heq, hlb0, hlbn, hlow, hhigh⟩ :=
    bs_loop_ld_spec hs p d.length 0 ((d.length : ℤ) - 1)
      (by omega) le_rfl (by omega) (by omega)
      (by intro i hi hi'; omega) (by intro i hi hi'; omega)
  by_cases hA : lb = 0
  · -- no candidate below: the result is the least element `d[0]`
    subst hA
    have hc1 : cand_at d (-1 : ℤ) = [] := by
      simp only [cand_at]
      rw [if_neg]; omega
    have hc2 : cand_at d (0 : ℤ) = [dget d 0] := by
      simp only [cand_at]
      rw [if_pos]; exact ⟨le_rfl, by omega⟩
    have hres : adjust_to_diatonic_ld p d = dget d 0 := by
      simp only [adjust_to_diatonic_ld]
      rw [heq]
      simp [hc1, hc2, pymin]
    rw [hres]
    refine ⟨dget_mem d le_rfl (by omega), ?_⟩
    intro x hx
    obtain ⟨j, hj, rfl⟩ := List.mem_iff_getElem.mp hx
    rw [← dget_coe d j hj]
    have h1 : p ≤ dget d 0 := hhigh 0 le_rfl (by omega)
    have h2 : dget d 0 ≤ dget d (j : ℤ) :=
      dget_mono hs le_rfl (by omega) (by omega)
    rw [abs_of_nonneg (by omega), abs_of_nonneg (by omega)]
    omega
  · by_cases hB : lb = (d.length : ℤ)
    · -- no candidate at or above: the result is the greatest element
      have hc1 : cand_at d (lb - 1) = [dget d (lb - 1)] := by
        simp only [cand_at]
        rw [if_pos]; exact ⟨by omega, by omega⟩
      have hc2 : cand_at d lb = [] := by
        simp only [cand_at]
        rw [if_neg]; omega
      have hres : adjust_to_diatonic_ld p d = dget d (lb - 1) := by
        simp only [adjust_to_diatonic_ld]
        rw [heq]
        simp [hc1, hc2, pymin]
      rw [hres]
      refine ⟨dget_mem d (by omega) (by omega), ?_⟩
      intro x hx
      obtain ⟨j, hj, rfl⟩ := List.mem_iff_getElem.mp hx
      rw [← dget_coe d j hj]
      have h1 : dget d (lb - 1) < p := hlow (lb - 1) (by omega) (by omega)
      have h2 : dget d (j : ℤ) ≤ dget d (lb - 1) :=
        dget_mono hs (by omega) (by omega) (by omega)
      rw [abs_of_nonpos (by omega), abs_of_nonpos (by omega)]
      omega
    · -- both candidates exist: `b` below, `a` at or above
      have hc1 : cand_at d (lb - 1) = [dget d (lb - 1)] := by
        simp only [cand_at]
        rw [if_pos]; exact ⟨by omega, by omega⟩
      have hc2 : cand_at d lb = [dget d lb] := by
        simp only [cand_at]
        rw [if_pos]; exact ⟨by omega, by omega⟩
      have hres : adjust_to_diatonic_ld p d =
          if |dget d lb - p| < |dget d (lb - 1) - p| then dget d lb
          else dget d (lb - 1) := by
        simp only [adjust_to_diatonic_ld]
        rw [heq]
        simp [hc1, hc2, pymin]
      have hb : dget d (lb - 1) < p := hlow (lb - 1) (by omega) (by omega)
      have ha : p ≤ dget d lb := hhigh lb le_rfl (by omega)
      have habs_a : |dget d lb - p| = dget d lb - p := abs_of_nonneg (by omega)
      have habs_b : |dget d (lb - 1) - p| = p - dget d (lb - 1) := by
        rw [abs_of_nonpos (by omega)]; ring
      by_cases hcmp : |dget d lb - p| < |dget d (lb - 1) - p|
      · have hres2 : adjust_to_diatonic_ld p d = dget d lb := by
          rw [hres, if_pos hcmp]
        rw [habs_a, habs_b] at hcmp
        rw [hres2]
        refine ⟨dget_mem d (by omega) (by omega), ?_⟩
        intro x hx
        obtain ⟨j, hj, rfl⟩ := List.mem_iff_getElem.mp hx
        rw [← dget_coe d j hj, habs_a]
        by_cases hside : (j : ℤ) < lb
        · have h2 : dget d (j : ℤ) ≤ dget d (lb - 1) :=
            dget_mono hs (by omega) (by omega) (by omega)
          rw [abs_of_nonpos (by omega)]
          omega
        · have h2 : dget d lb ≤ dget d (j : ℤ) :=
            dget_mono hs (by omega) (by omega) (by omega)
          rw [abs_of_nonneg (by omega)]
          omega
      · have hres2 : adjust_to_diatonic_ld p d = dget d (lb - 1) := by
          rw [hres, if_neg hcmp]
        rw [habs_a, habs_b] at hcmp
        rw [hres2]
        refine ⟨dget_mem d (by omega) (by omega), ?_⟩
        intro x hx
        obtain ⟨j, hj, rfl⟩ := List.mem_iff_getElem.mp hx
        rw [← dget_coe d j hj, habs_b]
        by_cases hside : (j : ℤ) < lb
        · have h2 : dget d (j : ℤ) ≤ dget d (lb - 1) :=
            dget_mono hs (by omega) (by omega) (by omega)
          rw [abs_of_nonpos (by omega)]
          omega
        · have h2 : dget d lb ≤ dget d (j : ℤ) :=
            dget_mono hs (by omega) (by omega) (by omega)
          rw [abs_of_nonneg (by omega)]
          omega

lemma bs_loop_ld_eq_hck (d : List ℤ) (p : ℤ) :
    ∀ fuel l r, bs_loop_ld d p fuel l r = bs_loop_hck d p fuel l r := by
  intro fuel
  induction fuel with
  | zero => intro l r; rfl
  | succ fuel ih => intro l r; simp only [bs_loop_ld, bs_loop_hck, ih]

/-- Claim C1: for every integer pitch and every non-empty strictly
ascending list, `adjust_to_diatonic` returns an element of the list whose
absolute distance to the pitch is minimal over the list, and any element
at the same minimal distance is at or above the returned one (so an
equidistant below/at-or-above pair resolves to the lower element). -/
theorem adjust_to_diatonic_nearest (pitch_num : ℤ) (diatonic_pitches : List ℤ)
    (hne : diatonic_pitches ≠ [])
    (hsorted : List.Sorted (· < ·) diatonic_pitches) :
    adjust_to_diatonic_ld pitch_num diatonic_pitches ∈ diatonic_pitches ∧
      ∀ x ∈ diatonic_pitches,
        |adjust_to_diatonic_ld pitch_num diatonic_pitches - pitch_num| ≤ |x - pitch_num| ∧
          (|adjust_to_diatonic_ld pitch_num diatonic_pitches - pitch_num| = |x - pitch_num| →
            adjust_to_diatonic_ld pitch_num diatonic_pitches ≤ x) :=
  adjust_ld_spec pitch_num diatonic_pitches hne hsorted

/-- Witness for C1 at the spec's own scenario: pitch 61 against the
C-major octave `[60, 62, 64, 65, 67, 69, 71, 72]`. -/
theorem adjust_to_diatonic_nearest_witness :
    adjust_to_diatonic_ld 61 [60, 62, 64, 65, 67, 69, 71, 72] ∈
        [60, 62, 64, 65, 67, 69, 71, 72] ∧
      ∀ x ∈ [(60 : ℤ), 62, 64, 65, 67, 69, 71, 72],
        |adjust_to_diatonic_ld 61 [60, 62, 64, 65, 67, 69, 71, 72] - 61| ≤ |x - 61| ∧
          (|adjust_to_diatonic_ld 61 [60, 62, 64, 65, 67, 69, 71, 72] - 61| = |x - 61| →
            adjust_to_diatonic_ld 61 [60, 62, 64, 65, 67, 69, 71, 72] ≤ x) :=
  adjust_to_diatonic_nearest 61 [60, 62, 64, 65, 67, 69, 71, 72]
    (by decide) (by decide)

/-- Claim C8: `adjust_to_diatonic` is idempotent on every non-empty
strictly ascending list. -/
theorem adjust_to_diatonic_idempotent (p : ℤ) (d : List ℤ) (hne : d ≠ [])
    (hs : List.Sorted (· < ·) d) :
    adjust_to_diatonic_ld (adjust_to_diatonic_ld p d) d = adjust_to_diatonic_ld p d := by
  obtain ⟨hmem, _⟩ := adjust_ld_spec p d hne hs
  obtain ⟨_, hopt⟩ := adjust_ld_spec (adjust_to_diatonic_ld p d) d hne hs
  have h0 := (hopt _ hmem).1
  simp only [sub_self, abs_zero] at h0
  have h1 := le_antisymm h0 (abs_nonneg _)
  rw [abs_eq_zero, sub_eq_zero] at h1
  exact h1

/-- Witness for C8: snapping 61 twice into `[60, 62]` equals snapping once. -/
theorem adjust_to_diatonic_idempotent_witness :
    adjust_to_diatonic_ld (adjust_to_diatonic_ld 61 [60, 62]) [60, 62] =
      adjust_to_diatonic_ld 61 [60, 62] :=
  adjust_to_diatonic_idempotent 61 [60, 62] (by decide) (by decide)

/-- Claim C9: the copy of `adjust_to_diatonic` in `less_dissonance.py` and
the copy in `harmonize_choose_key.py` are extensionally equal, for every
pitch and every list (sorted or not). -/
theorem adjust_to_diatonic_copies_eq :
    ∀ (pitch_num : ℤ) (diatonic_pitches : List ℤ),
      adjust_to_diatonic_ld pitch_num diatonic_pitches =
        adjust_to_diatonic_hck pitch_num diatonic_pitches := by
  intro p d
  simp only [adjust_to_diatonic_ld, adjust_to_diatonic_hck, bs_loop_ld_eq_hck]

/-- Claim C6: the Harmonizer's octave guard — for every input pitch and
every diatonic set, the output pitch's octave (`pitch // 12`) differs from
the input pitch's octave by at most 1. -/
theorem harmonizer_octave_guard (diatonic_pitches : List ℤ) (p : ℤ) :
    |harmonized_pitch diatonic_pitches p / 12 - p / 12| ≤ 1 := by
  simp only [harmonized_pitch]
  by_cases h : 1 < |adjust_to_diatonic_hck p diatonic_pitches / 12 - p / 12|
  · rw [if_pos h]
    have h1 : (p / 12 * 12 + adjust_to_diatonic_hck p diatonic_pitches % 12) / 12
        = p / 12 := by omega
    rw [h1]
    simp
  · rw [if_neg h]
    exact not_lt.mp h

/-! ### Lemmas about the NoteSegmenter -/

lemma tableLookup_none_not_key (p : ℤ) :
    ∀ A : NoteTable, tableLookup p A = none → p ∉ A.map Prod.fst := by
  intro A
  induction A with
  | nil => simp
  | cons qv rest ih =>
    obtain ⟨q, v⟩ := qv
    simp only [tableLookup]
    by_cases hq : q = p
    · rw [if_pos hq]; intro h; cases h
    · rw [if_neg hq]
      intro h
      simp only [List.map_cons, List.mem_cons, not_or]
      exact ⟨fun hpq => hq hpq.symm, ih h⟩

lemma tableRemove_keys_sublist (p : ℤ) :
    ∀ A : NoteTable, ((tableRemove p A).map Prod.fst).Sublist (A.map Prod.fst) := by
  intro A
  induction A with
  | nil => simp [tableRemove]
  | cons qv rest ih =>
    obtain ⟨q, v⟩ := qv
    simp only [tableRemove]
    by_cases hq : q = p
    · rw [if_pos hq]
      exact (List.sublist_cons_self _ _)
    · rw [if_neg hq]
      simpa using ih.cons₂ q

lemma tableLookup_perm_remove (p : ℤ) :
    ∀ (A : NoteTable) (v : ℚ × ℤ), tableLookup p A = some v →
      A.Perm ((p, v) :: tableRemove p A) := by
  intro A
  induction A with
  | nil => intro v h; cases h
  | cons qv rest ih =>
    obtain ⟨q, w⟩ := qv
    intro v h
    simp only [tableLookup] at h
    by_cases hq : q = p
    · rw [if_pos hq] at h
      obtain rfl : w = v := by simpa using h
      subst hq
      simp [tableRemove]
    · rw [if_neg hq] at h
      have hperm := ih v h
      simp only [tableRemove]
      rw [if_neg hq]
      exact (hperm.cons (q, w)).trans (List.Perm.swap _ _ _)

lemma tableUpdate_of_not_key (p : ℤ) (v : ℚ × ℤ) :
    ∀ A : NoteTable, p ∉ A.map Prod.fst → tableUpdate p v A = A ++ [(p, v)] := by
  intro A
  induction A with
  | nil => intro _; rfl
  | cons qv rest ih =>
    obtain ⟨q, w⟩ := qv
    intro h
    simp only [List.map_cons, List.mem_cons, not_or] at h
    simp only [tableUpdate]
    rw [if_neg (fun hq => h.1 hq.symm), ih h.2]
    simp

lemma pairwise_of_subperm {R : ℚ → ℚ → Prop} (hR : ∀ x y, R x y → R y x)
    {l1 l2 : List ℚ} (h : l1.Subperm l2) (hp : l2.Pairwise R) : l1.Pairwise R := by
  obtain ⟨l, hperm, hsub⟩ := h
  exact ((hperm.pairwise_iff (fun hxy => hR _ _ hxy)).mp) (hp.sublist hsub)

lemma SegInv_step (gap dur t : ℚ) (hgap0 : 0 ≤ gap) (obs : Option (ℤ × ℤ))
    (s : SegState) (h : SegInv gap s) : SegInv gap (segStep gap dur t obs s) := by
  rcases obs with _ | ⟨pnum, vel⟩
  · simpa [segStep] using h
  · obtain ⟨hkeys, hbound, hpair⟩ := h
    simp only [segStep]
    by_cases hgapc : gap ≤ t - s.last_note_time
    · rw [if_pos hgapc]
      have hlast : s.last_note_time ≤ t := by linarith
      have hRnew : ∀ a ∈ allStarts s, gap ≤ |a - t| := by
        intro a ha
        have h1 := hbound a ha
        rw [abs_of_nonpos (by linarith : a - t ≤ 0)]
        linarith
      have hLt : List.Pairwise (fun a b => gap ≤ |a - b|) (allStarts s ++ [t]) := by
        rw [List.pairwise_append]
        refine ⟨hpair, List.pairwise_singleton _ _, ?_⟩
        intro a ha b hb
        rw [List.mem_singleton] at hb
        subst hb
        exact hRnew a ha
      have hBt : ∀ x ∈ allStarts s ++ [t], x ≤ t := by
        intro x hx
        rcases List.mem_append.mp hx with hx | hx
        · exact le_trans (hbound x hx) hlast
        · rw [List.mem_singleton] at hx; subst hx; exact le_rfl
      have hsym : ∀ x y : ℚ, gap ≤ |x - y| → gap ≤ |y - x| := by
        intro x y hxy
        rwa [abs_sub_comm]
      split
      · -- an active note of this pitch exists: close it, then reopen
        rename_i st ov hlk
        have hperm := tableLookup_perm_remove pnum s.active_notes (st, ov) hlk
        have hkeysperm : (s.active_notes.map Prod.fst).Perm
            (pnum :: (tableRemove pnum s.active_notes).map Prod.fst) := by
          simpa using hperm.map Prod.fst
        have hknodup := (hkeysperm.nodup_iff).mp hkeys
        obtain ⟨hni, hrnodup⟩ := List.nodup_cons.mp hknodup
        have hupd := tableUpdate_of_not_key pnum (t, vel) _ hni
        have hstartperm : (s.active_notes.map (fun pv => pv.2.1)).Perm
            (st :: (tableRemove pnum s.active_notes).map (fun pv => pv.2.1)) := by
          simpa using hperm.map (fun pv => pv.2.1)
        have hkeys' : (((tableRemove pnum s.active_notes) ++ [(pnum, (t, vel))]).map
            Prod.fst).Nodup := by
          simpa [List.nodup_append, hrnodup] using hni
        have hperm2 : ((s.notes.map PNote.start ++
            (st :: (tableRemove pnum s.active_notes).map (fun pv => pv.2.1))) ++ [t]).Perm
            (allStarts s ++ [t]) :=
          (List.Perm.append_left (s.notes.map PNote.start) hstartperm.symm).append_right [t]
        split
        · -- long enough: the closed note is emitted
          rename_i hdur
          rw [hupd]
          refine ⟨by exact hkeys', ?_, ?_⟩
          · intro x hx
            refine hBt x (hperm2.subset ?_)
            simpa [allStarts, List.append_assoc] using hx
          · refine (List.Perm.pairwise_iff (fun hxy => hsym _ _ hxy) ?_).mpr hLt
            refine List.Perm.trans ?_ hperm2
            simp [allStarts, List.append_assoc]
        · -- too short: the closed note is dropped
          rename_i hdur
          rw [hupd]
          have hsub : ((s.notes.map PNote.start ++
              ((tableRemove pnum s.active_notes).map (fun pv => pv.2.1) ++ [t]))).Sublist
              ((s.notes.map PNote.start ++
                ((st :: (tableRemove pnum s.active_notes).map (fun pv => pv.2.1)) ++ [t]))) :=
            List.Sublist.append_left
              (((List.sublist_cons_self st _).append_right [t])) _
          have hsubperm : ((s.notes.map PNote.start ++
              ((tableRemove pnum s.active_notes).map (fun pv => pv.2.1) ++ [t]))).Subperm
              (allStarts s ++ [t]) := by
            refine hsub.subperm.trans (List.Perm.subperm ?_)
            refine List.Perm.trans ?_ hperm2
            simp [List.append_assoc]
          refine ⟨by exact hkeys', ?_, ?_⟩
          · intro x hx
            refine hBt x (hsubperm.subset ?_)
            simpa [allStarts] using hx
          · have := pairwise_of_subperm hsym hsubperm hLt
            simpa [allStarts] using this
      · -- the observed pitch has no active note: open one
        rename_i hlk
        have hnk := tableLookup_none_not_key pnum s.active_notes hlk
        rw [tableUpdate_of_not_key pnum (t, vel) s.active_notes hnk]
        refine ⟨?_, ?_, ?_⟩
        · simpa [List.nodup_append, hkeys] using hnk
        · intro x hx
          refine hBt x ?_
          simpa [allStarts, List.append_assoc] using hx
        · have heq : allStarts
              { s with
                active_notes := s.active_notes ++ [(pnum, (t, vel))],
                last_note_time := t } = allStarts s ++ [t] := by
            simp [allStarts]
          rw [heq]
          exact hLt
    · rw [if_neg hgapc]
      exact ⟨hkeys, hbound, hpair⟩

lemma segRun_preserve (gap dur sr : ℚ) (P : SegState → Prop)
    (hstep : ∀ t obs s, P s → P (segStep gap dur t obs s)) :
    ∀ (fs : List (Option (ℤ × ℤ))) (i : ℕ) (s : SegState),
      P s → P (segRun gap dur sr fs i s) := by
  intro fs
  induction fs with
  | nil => intro i s hP; simpa [segRun] using hP
  | cons f fs ih =>
    intro i s hP
    simp only [segRun]
    exact ih (i + 1) _ (hstep _ f s hP)

lemma segRun_preserve_idx (gap dur sr : ℚ) (P : ℕ → SegState → Prop)
    (hstep : ∀ (i : ℕ) obs s, P i s →
      P (i + 1) (segStep gap dur ((i : ℚ) * (hop_length : ℚ) / sr) obs s)) :
    ∀ (fs : List (Option (ℤ × ℤ))) (i : ℕ) (s : SegState),
      P i s → P (i + fs.length) (segRun gap dur sr fs i s) := by
  intro fs
  induction fs with
  | nil => intro i s hP; simpa [segRun] using hP
  | cons f fs ih =>
    intro i s hP
    simp only [segRun, List.length_cons]
    have hrec := ih (i + 1) _ (hstep i f s hP)
    have hidx : i + (fs.length + 1) = (i + 1) + fs.length := by omega
    rw [hidx]
    exact hrec

lemma filterMap_starts_sublist (g : ℤ × ℚ × ℤ → Option PNote)
    (hg : ∀ pv n, g pv = some n → n.start = pv.2.1) :
    ∀ A : NoteTable,
      ((A.filterMap g).map PNote.start).Sublist (A.map (fun pv => pv.2.1)) := by
  intro A
  induction A with
  | nil => simp
  | cons pv rest ih =>
    rcases hgv : g pv with _ | n
    · simp only [List.filterMap_cons, hgv, List.map_cons]
      exact ih.trans (List.sublist_cons_self _ _)
    · simp only [List.filterMap_cons, hgv, List.map_cons]
      rw [hg pv n hgv]
      exact ih.cons₂ _

/-- Claim C2: with a positive `min_note_gap`, any two distinct notes
emitted by `audio_to_midi`'s segmentation (scan-closed or flush-closed,
any pitches) have onsets at least `min_note_gap` apart. -/
theorem audio_to_midi_onset_spacing (min_note_gap min_note_duration sr : ℚ)
    (hgap : 0 < min_note_gap) (frames : List (Option (ℤ × ℤ))) :
    List.Pairwise (fun n1 n2 : PNote => min_note_gap ≤ |n1.start - n2.start|)
      (audio_to_midi_notes min_note_gap min_note_duration sr frames) := by
  have hinv : SegInv min_note_gap
      (segRun min_note_gap min_note_duration sr frames 0 ⟨-min_note_gap, [], []⟩) := by
    refine segRun_preserve _ _ _ _
      (fun t obs s hs => SegInv_step _ _ t (le_of_lt hgap) obs s hs) frames 0 _ ?_
    exact ⟨by simp, by simp [allStarts], by simp [allStarts]⟩
  obtain ⟨-, -, hpair⟩ := hinv
  refine (List.pairwise_map (f := PNote.start)
    (R := fun a b => min_note_gap ≤ |a - b|)
    (l := audio_to_midi_notes min_note_gap min_note_duration sr frames)).mp ?_
  unfold audio_to_midi_notes segFlush
  rw [List.map_append]
  refine List.Pairwise.sublist ?_ hpair
  refine List.Sublist.append_left ?_ _
  refine filterMap_starts_sublist _ ?_ _
  intro pv n hpv
  simp only at hpv
  split at hpv
  · cases hpv; rfl
  · cases hpv

/-- Witness for C2 at gap 1 over three concrete frames. -/
theorem audio_to_midi_onset_spacing_witness :
    List.Pairwise (fun n1 n2 : PNote => (1 : ℚ) ≤ |n1.start - n2.start|)
      (audio_to_midi_notes 1 1 1 [some (60, 100), none, some (62, 90)]) :=
  audio_to_midi_onset_spacing 1 1 1 (by norm_num) [some (60, 100), none, some (62, 90)]

lemma segStep_duration_floor (gap dur : ℚ) :
    ∀ (t : ℚ) (obs : Option (ℤ × ℤ)) (s : SegState),
      (∀ n ∈ s.notes, dur ≤ n.stop - n.start) →
      ∀ n ∈ (segStep gap dur t obs s).notes, dur ≤ n.stop - n.start := by
  intro t obs s h
  rcases obs with _ | ⟨pnum, vel⟩
  · simpa [segStep] using h
  · simp only [segStep]
    by_cases hgapc : gap ≤ t - s.last_note_time
    · rw [if_pos hgapc]
      split
      · rename_i st ov hlk
        split
        · rename_i hdur
          intro n hn
          simp only [List.mem_append, List.mem_singleton] at hn
          rcases hn with hn | hn
          · exact h n hn
          · subst hn; simpa using hdur
        · simpa using h
      · simpa using h
    · rw [if_neg hgapc]
      exact h

/-- Claim C3: every note emitted by `audio_to_midi`'s segmentation
(scan-closed or flush-closed at the full analyzed time span) satisfies
`end - start ≥ min_note_duration`; shorter candidates are dropped. -/
theorem audio_to_midi_duration_floor (min_note_gap min_note_duration sr : ℚ)
    (frames : List (Option (ℤ × ℤ))) :
    ∀ n ∈ audio_to_midi_notes min_note_gap min_note_duration sr frames,
      min_note_duration ≤ n.stop - n.start := by
  have hrun := segRun_preserve min_note_gap min_note_duration sr
    (fun s => ∀ n ∈ s.notes, min_note_duration ≤ n.stop - n.start)
    (segStep_duration_floor min_note_gap min_note_duration) frames 0
    ⟨-min_note_gap, [], []⟩ (by simp)
  intro n hn
  unfold audio_to_midi_notes segFlush at hn
  rcases List.mem_append.mp hn with hn | hn
  · exact hrun n hn
  · obtain ⟨pv, -, hpv⟩ := List.mem_filterMap.mp hn
    simp only at hpv
    split at hpv
    · rename_i hc
      cases hpv
      simpa using hc
    · cases hpv

/-- Witness for C3: the single flush-closed note of a one-frame run meets
the duration floor. -/
theorem audio_to_midi_duration_floor_witness :
    (1 : ℚ) ≤ (⟨100, 60, 0, 512⟩ : PNote).stop - (⟨100, 60, 0, 512⟩ : PNote).start :=
  audio_to_midi_duration_floor 1 1 1 [some (60, 100)] ⟨100, 60, 0, 512⟩
    (by norm_num [audio_to_midi_notes, segRun, segStep, segFlush,
      tableLookup, tableUpdate, hop_length, n_fft,
      List.filterMap_cons, List.filterMap_nil])

lemma segStep_ends_ordered (gap dur sr : ℚ) (hsr : 0 < sr) :
    ∀ (i : ℕ) (obs : Option (ℤ × ℤ)) (s : SegState),
      (List.Pairwise (fun a b : PNote => a.stop ≤ b.stop) s.notes ∧
        ∀ n ∈ s.notes, n.stop ≤ (i : ℚ) * (hop_length : ℚ) / sr) →
      List.Pairwise (fun a b : PNote => a.stop ≤ b.stop)
          (segStep gap dur ((i : ℚ) * (hop_length : ℚ) / sr) obs s).notes ∧
        ∀ n ∈ (segStep gap dur ((i : ℚ) * (hop_length : ℚ) / sr) obs s).notes,
          n.stop ≤ ((i + 1 : ℕ) : ℚ) * (hop_length : ℚ) / sr := by
  intro i obs s h
  obtain ⟨hpair, hbnd⟩ := h
  have htmono : (i : ℚ) * (hop_length : ℚ) / sr ≤ ((i + 1 : ℕ) : ℚ) * (hop_length : ℚ) / sr := by
    have hle : ((i : ℚ)) * (hop_length : ℚ) ≤ (((i + 1 : ℕ)) : ℚ) * (hop_length : ℚ) := by
      have : ((i : ℚ)) ≤ (((i + 1 : ℕ)) : ℚ) := by push_cast; linarith
      have hh : (0 : ℚ) ≤ (hop_length : ℚ) := by positivity
      exact mul_le_mul_of_nonneg_right this hh
    exact (div_le_div_iff_of_pos_right hsr).mpr hle
  have hbnd' : ∀ n ∈ s.notes, n.stop ≤ ((i + 1 : ℕ) : ℚ) * (hop_length : ℚ) / sr :=
    fun n hn => le_trans (hbnd n hn) htmono
  rcases obs with _ | ⟨pnum, vel⟩
  · constructor
    · simpa [segStep] using hpair
    · simpa [segStep] using hbnd'
  · simp only [segStep]
    by_cases hgapc : gap ≤ (i : ℚ) * (hop_length : ℚ) / sr - s.last_note_time
    · rw [if_pos hgapc]
      split
      · rename_i st ov hlk
        split
        · rename_i hdur
          constructor
          · simp only []
            rw [List.pairwise_append]
            refine ⟨hpair, List.pairwise_singleton _ _, ?_⟩
            intro a ha b hb
            rw [List.mem_singleton] at hb
            subst hb
            simpa using hbnd a ha
          · intro n hn
            simp only [List.mem_append, List.mem_singleton] at hn
            rcases hn with hn | hn
            · exact hbnd' n hn
            · subst hn; simpa using htmono
        · exact ⟨by simpa using hpair, by simpa using hbnd'⟩
      · exact ⟨by simpa using hpair, by simpa using hbnd'⟩
    · rw [if_neg hgapc]
      exact ⟨hpair, hbnd'⟩

/-- Claim C10: for a positive sample rate, the notes emitted by
`audio_to_midi`'s segmentation come out in nondecreasing order of their
`end` time: scan-closed notes end at increasing frame times and every
flush-closed note ends at the full analyzed time span. -/
theorem audio_to_midi_ends_ordered (min_note_gap min_note_duration sr : ℚ)
    (hsr : 0 < sr) (frames : List (Option (ℤ × ℤ))) :
    List.Pairwise (fun a b : PNote => a.stop ≤ b.stop)
      (audio_to_midi_notes min_note_gap min_note_duration sr frames) := by
  have hrun := segRun_preserve_idx min_note_gap min_note_duration sr
    (fun i s => List.Pairwise (fun a b : PNote => a.stop ≤ b.stop) s.notes ∧
      ∀ n ∈ s.notes, n.stop ≤ (i : ℚ) * (hop_length : ℚ) / sr)
    (segStep_ends_ordered min_note_gap min_note_duration sr hsr) frames 0
    ⟨-min_note_gap, [], []⟩ (by simp)
  rw [Nat.zero_add] at hrun
  obtain ⟨hpair, hbnd⟩ := hrun
  unfold audio_to_midi_notes segFlush
  rw [List.pairwise_append]
  have hflush : ∀ m ∈ (segRun min_note_gap min_note_duration sr frames 0
      ⟨-min_note_gap, [], []⟩).active_notes.filterMap (fun pv =>
        let duration := (frames.length : ℚ) * (hop_length : ℚ) / sr - pv.2.1
        if min_note_duration ≤ duration then
          some (⟨pv.2.2, pv.1, pv.2.1, pv.2.1 + duration⟩ : PNote)
        else none),
      m.stop = (frames.length : ℚ) * (hop_length : ℚ) / sr := by
    intro m hm
    obtain ⟨pv, -, hpv⟩ := List.mem_filterMap.mp hm
    simp only at hpv
    split at hpv
    · cases hpv; simp
    · cases hpv
  refine ⟨hpair, ?_, ?_⟩
  · rw [List.pairwise_iff_getElem]
    intro a b ha hb hab
    rw [hflush _ (List.getElem_mem ha), hflush _ (List.getElem_mem hb)]
  · intro a ha b hb
    rw [hflush b hb]
    exact hbnd a ha

/-- Witness for C10 at sample rate 1 over two concrete frames. -/
theorem audio_to_midi_ends_ordered_witness :
    List.Pairwise (fun a b : PNote => a.stop ≤ b.stop)
      (audio_to_midi_notes 1 1 1 [some (60, 100), some (60, 90)]) :=
  audio_to_midi_ends_ordered 1 1 1 (by norm_num) [some (60, 100), some (60, 90)]

/-! ### Lemmas about the Harmonizer and the entry points -/

lemma insert_trimmed_pairwise (acc : List PNote) (n : PNote)
    (h : List.Pairwise (fun a b : PNote => a.stop ≤ b.start) acc) :
    List.Pairwise (fun a b : PNote => a.stop ≤ b.start) (insert_trimmed acc n) := by
  unfold insert_trimmed
  rw [List.pairwise_append]
  refine ⟨?_, List.pairwise_singleton _ _, ?_⟩
  · refine List.pairwise_map.mpr (h.imp ?_)
    intro a b hab
    by_cases ha : n.start < a.stop <;> by_cases hb : n.start < b.stop <;>
      simp [ha, hb] <;> linarith
  · intro a ha b hb
    have hb' : b = n := List.mem_singleton.mp hb
    obtain ⟨m, -, rfl⟩ := List.mem_map.mp ha
    rw [hb']
    by_cases hc : n.start < m.stop
    · simp [hc]
    · simp [hc]
      linarith [not_lt.mp hc]

lemma process_fold_pairwise (diatonic_pitches : List ℤ) :
    ∀ (input : List PNote) (acc : List PNote),
      List.Pairwise (fun a b : PNote => a.stop ≤ b.start) acc →
      List.Pairwise (fun a b : PNote => a.stop ≤ b.start)
        (input.foldl (fun acc n =>
          insert_trimmed acc { n with pitch := harmonized_pitch diatonic_pitches n.pitch })
          acc) := by
  intro input
  induction input with
  | nil => intro acc h; simpa using h
  | cons n rest ih =>
    intro acc h
    simp only [List.foldl_cons]
    exact ih _ (insert_trimmed_pairwise acc _ h)

/-- Claim C5: after the Harmonizer's note loop completes, any note inserted
earlier ends at or before the start of any note inserted later — inserting
a note truncates every earlier note overlapping its start, and later
insertions only ever lower an earlier note's `end`. -/
theorem process_midi_overlap_trim (diatonic_pitches : List ℤ) (input : List PNote) :
    List.Pairwise (fun a b : PNote => a.stop ≤ b.start)
      (process_midi_notes diatonic_pitches input) :=
  process_fold_pairwise diatonic_pitches input [] (by simp)

/-- Claim C7 (amended): the conversion boundary performs no validation —
an out-of-range instrument program is silently replaced by program 0
(Acoustic Grand Piano) and the segmentation core runs with whatever
`min_note_duration` and `min_note_gap` were supplied, including
non-positive values. -/
theorem audio_to_midi_no_validation (instrument : ℤ)
    (min_note_duration min_note_gap sr : ℚ) (frames : List (Option (ℤ × ℤ)))
    (h : instrument < 0 ∨ 127 < instrument) :
    audio_to_midi_entry instrument min_note_duration min_note_gap sr frames =
      (0, audio_to_midi_notes min_note_gap min_note_duration sr frames) := by
  unfold audio_to_midi_entry instrument_program_of
  rw [if_neg]
  · rintro ⟨h1, h2⟩
    omega

/-- Witness for the amended C7: instrument 200 with negative duration and
gap parameters reaches the core unmodified. -/
theorem audio_to_midi_no_validation_witness :
    audio_to_midi_entry 200 (-1) (-1) 1 [some (60, 100)] =
      (0, audio_to_midi_notes (-1) (-1) 1 [some (60, 100)]) :=
  audio_to_midi_no_validation 200 (-1) (-1) 1 [some (60, 100)] (by norm_num)

/-- Counterexample to claim C7 as stated: a call with instrument 200 and
negative `min_note_duration` / `min_note_gap` is not rejected — the
segmentation core runs on these parameters and emits a note, with the
program silently defaulted to 0. -/
theorem audio_to_midi_no_validation_cex :
    audio_to_midi_entry 200 (-1) (-1) 1 [some (60, 100)] =
        (0, [⟨100, 60, 0, 512⟩]) ∧
      (audio_to_midi_entry 200 (-1) (-1) 1 [some (60, 100)]).2 ≠ [] := by
  have h : audio_to_midi_entry 200 (-1) (-1) 1 [some (60, 100)] =
      (0, [⟨100, 60, 0, 512⟩]) := by
    norm_num [audio_to_midi_entry, instrument_program_of, audio_to_midi_notes,
      segRun, segStep, segFlush, tableLookup, tableUpdate, hop_length, n_fft,
      List.filterMap_cons, List.filterMap_nil]
  refine ⟨h, ?_⟩
  rw [h]
  simp

/-- Claim C4 is violated by the code (code bug): mixing three equal-length
equal-sample-rate silent buffers makes `np.max(np.abs(combined))` zero,
and the unguarded `combined /= max` produces non-finite samples (`none`,
i.e. NaN), not an all-zero buffer. -/
theorem mix_wavs_silent_nan :
    mix_wavs [[0, 0], [0, 0], [0, 0]] = [none, none] ∧
      mix_wavs [[0, 0], [0, 0], [0, 0]] ≠ [some 0, some 0] := by
  have h : mix_wavs [[0, 0], [0, 0], [0, 0]] = [none, none] := by
    norm_num [mix_wavs, combinedOf, maxAbs, pad_to, peakDiv, List.range_succ]
  refine ⟨h, ?_⟩
  rw [h]
  simp

end MusicOfNature
